import Mathlib

set_option maxHeartbeats 1000000

/-!
Verification of the AST normalization layer and the renaming pass of the
purr compiler front-end, embedded shallowly from `src/parser.rs`,
`src/rename.rs`, `src/ast/expr.rs` and `src/ast/meta.rs`.

Machine integers (`u64` literal payloads, `f64` bit patterns) are carried
as `Nat`; the functions under study never compute with them.  Interned
`Symbol`s are carried as `String`s (interned identity equals string
equality).  Rust in-place mutation is embedded as explicit state passing;
Rust panics (`expect`, `todo!`, `assert!`, a non-exhaustive `match`) are
embedded as explicit error values of `Option`/`Except`.
-/

namespace Purr

/-- Interned identifier (`src/symbol.rs`, not under src/): equality is by
interned identity, which coincides with string equality. -/
abbrev Symbol := String

/-- Identity of a module (interned module name). -/
abbrev ModuleId := String

/-- Half-open byte range in the source text (`src/ast/meta.rs`). -/
structure SourceSpan where
  start : Nat
  «end» : Nat
  deriving DecidableEq, Repr

/-- Modelled from the spec: the file defining `QualifiedName` (ast/mod.rs)
is not under src/.  Per §3, a `QualifiedName` is an optional module
qualifier plus a `Symbol`, exactly as written in the source program;
identity is the pair. -/
structure QualifiedName where
  module : Option ModuleId
  name : Symbol
  deriving DecidableEq, Repr

/-- Modelled from the spec: whether the name carries a module qualifier
(used by `constraint_to_class_head` and `expr_to_pat`). -/
def QualifiedName.is_actually_qualified (q : QualifiedName) : Bool :=
  q.module.isSome

/-- Modelled from the spec: a resolved `(owning module, symbol)` pair (§3). -/
structure AbsoluteName where
  module : ModuleId
  name : Symbol
  deriving DecidableEq, Repr

/-- Modelled from the spec: an `AbsoluteName` re-expressed as a qualified
name anchored to its defining module (§4.3, used by the renamer when it
rewrites a resolved occurrence). -/
def AbsoluteName.to_qualified_name (a : AbsoluteName) : QualifiedName :=
  ⟨some a.module, a.name⟩

/-- Modelled from the spec: a declaration-identity type pairing an owning
module with a symbol (§6, consumed by `rename_module`). -/
structure DeclId where
  module : ModuleId
  name : Symbol
  deriving DecidableEq, Repr

mutual

/-- Type AST node: `Located<TypeKind>` with the position wrapper of
`src/ast/meta.rs` inlined as the single constructor (the Rust `Type`;
that name is taken in Lean). -/
inductive Ty where
  | mk (span : SourceSpan) (kind : TypeKind)

/-- Modelled from the spec: `TypeKind` lives in ast/mod.rs, which is not
under src/.  The variants matched by `constraint_to_instance_head` /
`constraint_to_class_head` (`TypeConstructor`, `TypeApp`, `Var`) are taken
from their match arms in `src/parser.rs`; `Arrow` stands for the remaining
variants of the spec (function types, rows, foralls, ...), all of which
those functions treat alike through their catch-all arms. -/
inductive TypeKind where
  | TypeConstructor (con : QualifiedName)
  | TypeApp (f : Ty) (x : Ty)
  | Var (v : Symbol)
  | Arrow (a : Ty) (b : Ty)

end

/-- Projection mirroring `Located::into_inner` for types. -/
def Ty.into_inner : Ty → TypeKind
  | ⟨_, k⟩ => k

/-- Span projection for types. -/
def Ty.span : Ty → SourceSpan
  | ⟨sp, _⟩ => sp

/-- Modelled from the spec: a class parameter is a type variable plus an
optional kind annotation slot (`params.push((v, None))` in
`constraint_to_class_head`). -/
abbrev TypeParameter := Symbol × Option Ty

/-- Accumulator-passing rendering of the loop of
`constraint_to_instance_head` (`src/parser.rs` lines 16-32): chase the
spine of `TypeApp` nodes pushing each argument, reverse on reaching a
`TypeConstructor` head. -/
def constraint_to_instance_head_aux : Ty → List Ty → Option (QualifiedName × List Ty)
  | ⟨_, .TypeConstructor con⟩, args => some (con, args.reverse)
  | ⟨_, .TypeApp f x⟩, args => constraint_to_instance_head_aux f (args ++ [x])
  | _, _ => none

/-- Embeds `constraint_to_instance_head` (`src/parser.rs` lines 16-32). -/
def constraint_to_instance_head (c : Ty) : Option (QualifiedName × List Ty) :=
  constraint_to_instance_head_aux c []

/-- Accumulator-passing rendering of the loop of
`constraint_to_class_head` (`src/parser.rs` lines 34-57): like the
instance-head walk, but the head must be unqualified and every spine
argument must be a bare type variable. -/
def constraint_to_class_head_aux : Ty → List TypeParameter → Option (Symbol × List TypeParameter)
  | ⟨_, .TypeConstructor con⟩, params =>
    if con.is_actually_qualified then none else some (con.name, params.reverse)
  | ⟨_, .TypeApp f x⟩, params =>
    match x with
    | ⟨_, .Var v⟩ => constraint_to_class_head_aux f (params ++ [(v, none)])
    | _ => none
  | _, _ => none

/-- Embeds `constraint_to_class_head` (`src/parser.rs` lines 34-57). -/
def constraint_to_class_head (c : Ty) : Option (Symbol × List TypeParameter) :=
  constraint_to_class_head_aux c []

/-- Modelled from the spec: `Declaration` lives in ast/mod.rs, which is not
under src/.  No function verified here ever looks inside a declaration
(`expr_to_pat` rejects `Let`/`Do` without traversing them, the renamer has
no arm for them), so it is carried as an uninterpreted atom. -/
inductive Declaration where
  | mk (id : Nat)
  deriving DecidableEq, Repr

/-- Literal shapes generic over the embedded node type (`src/ast/expr.rs`
lines 128-137): `α = Expr` in expression position, `α = Pat` in pattern
position.  The `u64` integer payload and the `f64` bit pattern are carried
as `Nat`. -/
inductive Literal (α : Type) where
  | Integer (n : Nat)
  | Float (bits : Nat)
  | String (s : String)
  | Char (c : Char)
  | Boolean (b : Bool)
  | Array (xs : List α)
  | Object (fields : List (Symbol × α))

mutual

/-- Expression node: `Expr = Located<ExprKind>` (`src/ast/expr.rs` line 5)
with the position wrapper of `src/ast/meta.rs` inlined as the single
constructor, so that the mutual induction principle stays usable. -/
inductive Expr where
  | mk (span : SourceSpan) (kind : ExprKind)

/-- Embeds `ExprKind` (`src/ast/expr.rs` lines 8-61), all 19 variants.
`RecordUpdate` field lists are inlined as `List (Symbol × Expr)`. -/
inductive ExprKind where
  | Literal (l : Literal Expr)
  | Infix (x : Expr) (xs : List (InfixOp × Expr))
  | Accessor (x : Expr) (field : Symbol)
  | RecordUpdate (x : Expr) (update : List (Symbol × Expr))
  | Var (name : QualifiedName)
  | Operator (op : InfixOp)
  | DataConstructor (name : QualifiedName)
  | App (f : Expr) (args : List Expr)
  | Lam (pats : List Pat) (body : Expr)
  | Case (expr : Expr) (branches : List CaseBranch)
  | If (cond then_ else_ : Expr)
  | Typed (x : Expr) (ty : Ty)
  | Let (decls : List Declaration) (body : Expr)
  | Wildcard
  | RecordUpdateSuffix (update : List (Symbol × Expr))
  | NamedPat (name : Symbol) (x : Expr)
  | Do (items : List DoItem)
  | Ado (items : List DoItem) (x : Expr)
  | Negate (x : Expr)

/-- Embeds `InfixOp` (`src/ast/expr.rs` lines 64-67). -/
inductive InfixOp where
  | Symbol (s : Symbol)
  | Backtick (e : Expr)

/-- Embeds `DoItem` (`src/ast/expr.rs` lines 70-74). -/
inductive DoItem where
  | Let (decls : List Declaration)
  | Expr (e : Expr)
  | Bind (p : Pat) (e : Expr)

/-- Pattern node: `Pat = Located<PatKind>` (`src/ast/expr.rs` line 108)
with the position wrapper inlined, like `Expr`. -/
inductive Pat where
  | mk (span : SourceSpan) (kind : PatKind)

/-- Embeds `PatKind` (`src/ast/expr.rs` lines 111-126).  One deviation,
forced by an inconsistency between the two source files: `expr_to_pat` in
`src/parser.rs` builds `PatKind::Infix` labels both from `InfixOp` labels
(its `Infix` arm) and from `Symbol` record labels (its `RecordUpdate`
arm), while `src/ast/expr.rs` declares the labels as `Symbol`.  The
labels are carried here as `InfixOp`, record labels being injected
through `InfixOp.Symbol`, which loses no information from either arm. -/
inductive PatKind where
  | Literal (l : Literal Pat)
  | Infix (x : Pat) (xs : List (InfixOp × Pat))
  | Var (v : Symbol)
  | DataConstructorApp (name : QualifiedName) (args : List Pat)
  | Wildcard
  | Named (name : Symbol) (p : Pat)
  | Typed (p : Pat) (ty : Ty)

/-- Embeds `CaseBranch`.  The field layout follows its use sites in
`src/rename.rs` (lines 107-116: `self.pats`, a list, and `self.expr`);
`src/ast/expr.rs` lines 85-88 show an older single-pattern layout. -/
inductive CaseBranch where
  | mk (pats : List Pat) (expr : PossiblyGuardedExpr)

/-- Embeds `PossiblyGuardedExpr` (`src/ast/expr.rs` lines 91-94). -/
inductive PossiblyGuardedExpr where
  | Unconditional (e : Expr)
  | Guarded (gs : List GuardedExpr)

/-- Embeds `GuardedExpr` (`src/ast/expr.rs` lines 97-100). -/
inductive GuardedExpr where
  | mk (guards : List Guard) (expr : Expr)

/-- Embeds `Guard` (`src/ast/expr.rs` lines 103-106). -/
inductive Guard where
  | Expr (e : Expr)
  | Bind (p : Pat) (e : Expr)

end

/-- Projection mirroring `Located::into_inner` for expressions. -/
def Expr.into_inner : Expr → ExprKind
  | ⟨_, k⟩ => k

/-- Span projection for expressions. -/
def Expr.span : Expr → SourceSpan
  | ⟨sp, _⟩ => sp

/-- Embeds `normalize_app` (`src/parser.rs` lines 148-156): append the new
argument when the function is already an application, otherwise build a
fresh single-argument application. -/
def normalize_app (f : Expr) (x : Expr) : ExprKind :=
  match f with
  | ⟨_, .App f0 args⟩ => .App f0 (args ++ [x])
  | _ => .App f [x]

/-- Loop body of `apply_record_updates` (`src/parser.rs` lines 61-72).
The result vector grows at its end (`Vec::push`); a record-update suffix
pops the last element (`Vec::pop`, whose `expect("should be non-empty")`
panic is the `none` case) and pushes it back wrapped in a `RecordUpdate`
node carrying the suffix's own span. -/
def apply_record_updates_step (result : List Expr) (e : Expr) : Option (List Expr) :=
  match e with
  | ⟨suffix_span, .RecordUpdateSuffix update⟩ =>
    match result.getLast? with
    | none => none
    | some last => some (result.dropLast ++ [⟨suffix_span, .RecordUpdate last update⟩])
  | _ => some (result ++ [e])

/-- The `for expr in args` loop of `apply_record_updates`, threading the
result vector. -/
def apply_record_updates_aux : List Expr → List Expr → Option (List Expr)
  | result, [] => some result
  | result, e :: rest =>
    match apply_record_updates_step result e with
    | none => none
    | some result' => apply_record_updates_aux result' rest

/-- Embeds `apply_record_updates` (`src/parser.rs` lines 59-75).  The two
panic sites — `pop().expect("should be non-empty")` and `remove(0)` on an
empty vector — are embedded as `none`. -/
def apply_record_updates (f : Expr) (args : List Expr) : Option ExprKind :=
  match apply_record_updates_aux [f] args with
  | none => none
  | some [] => none
  | some (fst :: rest) => some (.App fst rest)

/-- Failure values of `expr_to_pat`.  The Rust function returns
`Result<Pat, String>`; `msg` carries its error strings.  The `match` in
`src/parser.rs` lines 81-124 has no arm for the `Operator`, `Ado` and
`Negate` variants declared in `src/ast/expr.rs`; reaching one of them has
no defined behavior in the source and is embedded as the distinguished
value `unhandledVariant`. -/
inductive PatConvError where
  | msg (s : String)
  | unhandledVariant
  deriving DecidableEq, Repr

mutual

/-- Embeds `expr_to_pat` (`src/parser.rs` lines 77-126): converts an
already-parsed expression subtree into a pattern, or fails with the
variant-specific message of the source. -/
def expr_to_pat : Expr → Except PatConvError Pat
  | ⟨span, kind⟩ =>
    match kind with
    | .Literal lit =>
      match lit_expr_to_pat lit with
      | .error e => .error e
      | .ok l => .ok ⟨span, .Literal l⟩
    | .Infix x xs =>
      match expr_to_pat x with
      | .error e => .error e
      | .ok p =>
        match expr_to_pat_pairs xs with
        | .error e => .error e
        | .ok ps => .ok ⟨span, .Infix p ps⟩
    | .Accessor _ _ => .error (.msg "Illegal record accessor in pattern")
    | .RecordUpdate x xs =>
      match expr_to_pat x with
      | .error e => .error e
      | .ok p =>
        match expr_to_pat_fields xs with
        | .error e => .error e
        | .ok ps => .ok ⟨span, .Infix p ps⟩
    | .Var name =>
      if name.is_actually_qualified then .error (.msg "Illegal qualified name in pattern")
      else .ok ⟨span, .Var name.name⟩
    | .Operator _ => .error .unhandledVariant
    | .DataConstructor name => .ok ⟨span, .DataConstructorApp name []⟩
    | .App f args =>
      match f with
      | ⟨_, .DataConstructor name⟩ =>
        match expr_to_pat_list args with
        | .error e => .error e
        | .ok ps => .ok ⟨span, .DataConstructorApp name ps⟩
      | _ => .error (.msg "illegal pattern in data constructor position")
    | .Lam _ _ => .error (.msg "Illegal lambda in pattern")
    | .Case _ _ => .error (.msg "Illegal case in pattern")
    | .If _ _ _ => .error (.msg "Illegal if in pattern")
    | .Typed x ty =>
      match expr_to_pat x with
      | .error e => .error e
      | .ok p => .ok ⟨span, .Typed p ty⟩
    | .Let _ _ => .error (.msg "Illegal let in pattern")
    | .Wildcard => .ok ⟨span, .Wildcard⟩
    | .RecordUpdateSuffix _ => .error (.msg "Illegal record update in pattern")
    | .Do _ => .error (.msg "Illegal do in pattern")
    | .NamedPat name x =>
      match expr_to_pat x with
      | .error e => .error e
      | .ok p => .ok ⟨span, .Named name p⟩
    | .Ado _ _ => .error .unhandledVariant
    | .Negate _ => .error .unhandledVariant

/-- Element-wise conversion of an argument list (the `collect` over
`args.into_iter().map(expr_to_pat)`), short-circuiting on the first
failing element, left to right. -/
def expr_to_pat_list : List Expr → Except PatConvError (List Pat)
  | [] => .ok []
  | x :: rest =>
    match expr_to_pat x with
    | .error e => .error e
    | .ok p =>
      match expr_to_pat_list rest with
      | .error e => .error e
      | .ok ps => .ok (p :: ps)

/-- Element-wise conversion of an infix chain's `(operator, operand)`
pairs: the operator label is passed through unchanged. -/
def expr_to_pat_pairs : List (InfixOp × Expr) → Except PatConvError (List (InfixOp × Pat))
  | [] => .ok []
  | (k, x) :: rest =>
    match expr_to_pat x with
    | .error e => .error e
    | .ok p =>
      match expr_to_pat_pairs rest with
      | .error e => .error e
      | .ok ps => .ok ((k, p) :: ps)

/-- Element-wise conversion of record-update fields for the
`RecordUpdate` arm; the `Symbol` field labels become infix-chain labels
(see the note on `PatKind`). -/
def expr_to_pat_fields : List (Symbol × Expr) → Except PatConvError (List (InfixOp × Pat))
  | [] => .ok []
  | (k, x) :: rest =>
    match expr_to_pat x with
    | .error e => .error e
    | .ok p =>
      match expr_to_pat_fields rest with
      | .error e => .error e
      | .ok ps => .ok ((InfixOp.Symbol k, p) :: ps)

/-- Element-wise conversion of object-literal fields, keeping the labels. -/
def expr_to_pat_object : List (Symbol × Expr) → Except PatConvError (List (Symbol × Pat))
  | [] => .ok []
  | (k, x) :: rest =>
    match expr_to_pat x with
    | .error e => .error e
    | .ok p =>
      match expr_to_pat_object rest with
      | .error e => .error e
      | .ok ps => .ok ((k, p) :: ps)

/-- Embeds `lit_expr_to_pat` (`src/parser.rs` lines 128-146): scalar
literals are copied, array and object literals recurse into their
elements through `expr_to_pat`. -/
def lit_expr_to_pat : Literal Expr → Except PatConvError (Literal Pat)
  | .Integer x => .ok (.Integer x)
  | .Float x => .ok (.Float x)
  | .String x => .ok (.String x)
  | .Char x => .ok (.Char x)
  | .Boolean x => .ok (.Boolean x)
  | .Array xs =>
    match expr_to_pat_list xs with
    | .error e => .error e
    | .ok ps => .ok (.Array ps)
  | .Object xs =>
    match expr_to_pat_object xs with
    | .error e => .error e
    | .ok ps => .ok (.Object ps)

end

/-- Discriminator for application nodes. -/
def ExprKind.isApp : ExprKind → Bool
  | .App _ _ => true
  | _ => false

/-- Discriminator for the record-update-suffix pseudo-expression. -/
def ExprKind.isRecordUpdateSuffix : ExprKind → Bool
  | .RecordUpdateSuffix _ => true
  | _ => false

/-- Discriminator for data-constructor reference nodes. -/
def ExprKind.isDataConstructor : ExprKind → Bool
  | .DataConstructor _ => true
  | _ => false

/-- A fixed span for concrete instantiations. -/
def sp0 : SourceSpan := ⟨0, 0⟩

theorem normalize_app_of_not_isApp (f x : Expr) (h : f.into_inner.isApp = false) :
    normalize_app f x = .App f [x] := by
  obtain ⟨sp, k⟩ := f
  cases k <;> first
    | rfl
    | exact absurd h (by simp [Expr.into_inner, ExprKind.isApp])

/-- C4: `normalize_app` appends to an existing application's argument
list and otherwise builds a fresh single-argument application, so that
building `f a b c` by successive calls yields the flat `App (f, [a, b, c])`
and never a nested application. -/
theorem c4_normalize_app_left_flattening :
    (∀ (sp : SourceSpan) (f0 : Expr) (args : List Expr) (x : Expr),
        normalize_app ⟨sp, .App f0 args⟩ x = .App f0 (args ++ [x])) ∧
    (∀ (f x : Expr), f.into_inner.isApp = false → normalize_app f x = .App f [x]) ∧
    (∀ (f a b c : Expr) (s1 s2 : SourceSpan), f.into_inner.isApp = false →
        normalize_app ⟨s2, normalize_app ⟨s1, normalize_app f a⟩ b⟩ c = .App f [a, b, c]) := by
  refine ⟨fun sp f0 args x => rfl, normalize_app_of_not_isApp, ?_⟩
  intro f a b c s1 s2 h
  rw [normalize_app_of_not_isApp f a h]
  rfl

/-- Witness for C4 at a concrete non-application head. -/
theorem c4_witness :
    normalize_app
        ⟨sp0, normalize_app ⟨sp0, normalize_app ⟨sp0, .Wildcard⟩ ⟨sp0, .Wildcard⟩⟩
          ⟨sp0, .Var ⟨none, "b"⟩⟩⟩ ⟨sp0, .Var ⟨none, "c"⟩⟩ =
      .App ⟨sp0, .Wildcard⟩ [⟨sp0, .Wildcard⟩, ⟨sp0, .Var ⟨none, "b"⟩⟩, ⟨sp0, .Var ⟨none, "c"⟩⟩] :=
  c4_normalize_app_left_flattening.2.2 ⟨sp0, .Wildcard⟩ ⟨sp0, .Wildcard⟩
    ⟨sp0, .Var ⟨none, "b"⟩⟩ ⟨sp0, .Var ⟨none, "c"⟩⟩ sp0 sp0 rfl

theorem apply_record_updates_step_not_suffix (result : List Expr) (e : Expr)
    (h : e.into_inner.isRecordUpdateSuffix = false) :
    apply_record_updates_step result e = some (result ++ [e]) := by
  obtain ⟨sp, k⟩ := e
  cases k <;> first
    | rfl
    | exact absurd h (by simp [Expr.into_inner, ExprKind.isRecordUpdateSuffix])

theorem apply_record_updates_step_ne_nil (result : List Expr) (e : Expr)
    (h : result ≠ []) :
    ∃ result', apply_record_updates_step result e = some result' ∧ result' ≠ [] := by
  obtain ⟨sp, k⟩ := e
  by_cases hs : ExprKind.isRecordUpdateSuffix k = true
  · obtain ⟨u, hu⟩ : ∃ u, k = ExprKind.RecordUpdateSuffix u := by
      cases k <;> first | exact ⟨_, rfl⟩ | simp [ExprKind.isRecordUpdateSuffix] at hs
    subst hu
    obtain ⟨l, hl⟩ := Option.isSome_iff_exists.mp (List.getLast?_isSome.mpr h)
    refine ⟨result.dropLast ++ [⟨sp, .RecordUpdate l u⟩], ?_, by simp⟩
    simp only [apply_record_updates_step]
    rw [hl]
  · exact ⟨result ++ [⟨sp, k⟩],
      apply_record_updates_step_not_suffix result ⟨sp, k⟩
        (by simpa [Expr.into_inner] using hs), by simp⟩

theorem apply_record_updates_aux_ne_nil (args : List Expr) :
    ∀ (result : List Expr), result ≠ [] →
      ∃ result', apply_record_updates_aux result args = some result' ∧ result' ≠ [] := by
  induction args with
  | nil => exact fun result h => ⟨result, rfl, h⟩
  | cons e rest ih =>
    intro result h
    obtain ⟨r1, hr1, hne1⟩ := apply_record_updates_step_ne_nil result e h
    obtain ⟨r2, hr2, hne2⟩ := ih r1 hne1
    refine ⟨r2, ?_, hne2⟩
    rw [apply_record_updates_aux, hr1]
    exact hr2

/-- C9: `apply_record_updates` is total — the head seeds the result list,
which never becomes empty, so neither internal panic site (the pop behind
a suffix, the final extraction of the applied function) can be reached. -/
theorem c9_apply_record_updates_total (f : Expr) (args : List Expr) :
    ∃ k, apply_record_updates f args = some k := by
  obtain ⟨result, hres, hne⟩ := apply_record_updates_aux_ne_nil args [f] (by simp)
  match result, hne with
  | fst :: rest, _ =>
    exact ⟨.App fst rest, by rw [apply_record_updates, hres]⟩

theorem apply_record_updates_aux_cons (result result' : List Expr) (e : Expr)
    (rest : List Expr) (h : apply_record_updates_step result e = some result') :
    apply_record_updates_aux result (e :: rest) = apply_record_updates_aux result' rest := by
  rw [apply_record_updates_aux, h]

/-- C5: walking `f r { x = 1 } { y: 2 } q`, each record-update suffix
rewraps the most recently assembled result with the suffix's own span,
other arguments accumulate in order, and the head becomes the applied
function: the result is `App (f, [RecordUpdate (RecordUpdate (r, u1), u2), q])`. -/
theorem c5_apply_record_updates_order
    (f r q : Expr) (s1 s2 : SourceSpan) (u1 u2 : List (Symbol × Expr))
    (hr : r.into_inner.isRecordUpdateSuffix = false)
    (hq : q.into_inner.isRecordUpdateSuffix = false) :
    apply_record_updates f [r, ⟨s1, .RecordUpdateSuffix u1⟩, ⟨s2, .RecordUpdateSuffix u2⟩, q] =
      some (.App f [⟨s2, .RecordUpdate ⟨s1, .RecordUpdate r u1⟩ u2⟩, q]) := by
  rw [apply_record_updates,
    apply_record_updates_aux_cons [f] [f, r] r _ (apply_record_updates_step_not_suffix [f] r hr),
    apply_record_updates_aux_cons [f, r] [f, ⟨s1, .RecordUpdate r u1⟩]
      ⟨s1, .RecordUpdateSuffix u1⟩ _ rfl,
    apply_record_updates_aux_cons [f, ⟨s1, .RecordUpdate r u1⟩]
      [f, ⟨s2, .RecordUpdate ⟨s1, .RecordUpdate r u1⟩ u2⟩] ⟨s2, .RecordUpdateSuffix u2⟩ _ rfl,
    apply_record_updates_aux_cons [f, ⟨s2, .RecordUpdate ⟨s1, .RecordUpdate r u1⟩ u2⟩]
      [f, ⟨s2, .RecordUpdate ⟨s1, .RecordUpdate r u1⟩ u2⟩, q] q _
      (apply_record_updates_step_not_suffix _ q hq)]
  rfl

/-- Witness for C5 at concrete expressions, mirroring the spec's example
`f r \x7b x = 1 \x7d \x7b y: 2 \x7d q`. -/
theorem c5_witness :
    apply_record_updates ⟨sp0, .Var ⟨none, "f"⟩⟩
        [⟨sp0, .Var ⟨none, "r"⟩⟩,
         ⟨sp0, .RecordUpdateSuffix [("x", ⟨sp0, .Literal (.Integer 1)⟩)]⟩,
         ⟨sp0, .RecordUpdateSuffix [("y", ⟨sp0, .Literal (.Integer 2)⟩)]⟩,
         ⟨sp0, .Var ⟨none, "q"⟩⟩] =
      some (.App ⟨sp0, .Var ⟨none, "f"⟩⟩
        [⟨sp0, .RecordUpdate ⟨sp0, .RecordUpdate ⟨sp0, .Var ⟨none, "r"⟩⟩
            [("x", ⟨sp0, .Literal (.Integer 1)⟩)]⟩
            [("y", ⟨sp0, .Literal (.Integer 2)⟩)]⟩,
         ⟨sp0, .Var ⟨none, "q"⟩⟩]) :=
  c5_apply_record_updates_order ⟨sp0, .Var ⟨none, "f"⟩⟩ ⟨sp0, .Var ⟨none, "r"⟩⟩
    ⟨sp0, .Var ⟨none, "q"⟩⟩ sp0 sp0 _ _ rfl rfl

theorem apply_record_updates_aux_all_suffix (args : List Expr) :
    ∀ (x : Expr), (∀ a ∈ args, a.into_inner.isRecordUpdateSuffix = true) →
      ∃ y, apply_record_updates_aux [x] args = some [y] := by
  induction args with
  | nil => exact fun x _ => ⟨x, rfl⟩
  | cons a rest ih =>
    intro x h
    obtain ⟨sp, k⟩ := a
    have ha := h _ (List.mem_cons_self _ _)
    cases k <;> simp [Expr.into_inner, ExprKind.isRecordUpdateSuffix] at ha
    case RecordUpdateSuffix u =>
      obtain ⟨y, hy⟩ := ih ⟨sp, .RecordUpdate x u⟩ (fun a ha => h a (List.mem_cons_of_mem _ ha))
      exact ⟨y, by
        rw [apply_record_updates_aux_cons [x] [⟨sp, .RecordUpdate x u⟩]
          ⟨sp, .RecordUpdateSuffix u⟩ rest rfl, hy]⟩

/-- C10: when every argument is a record-update suffix, the result is a
zero-argument application node wrapping the chained record update; in
particular one suffix gives `App (RecordUpdate (f, u), [])`, not a bare
`RecordUpdate` node. -/
theorem c10_all_suffix_empty_args :
    (∀ (f : Expr) (sp : SourceSpan) (u : List (Symbol × Expr)),
        apply_record_updates f [⟨sp, .RecordUpdateSuffix u⟩] =
          some (.App ⟨sp, .RecordUpdate f u⟩ [])) ∧
    (∀ (f : Expr) (args : List Expr),
        (∀ a ∈ args, a.into_inner.isRecordUpdateSuffix = true) →
        ∃ g, apply_record_updates f args = some (.App g [])) := by
  refine ⟨fun f sp u => rfl, ?_⟩
  intro f args h
  obtain ⟨y, hy⟩ := apply_record_updates_aux_all_suffix args f h
  exact ⟨y, by rw [apply_record_updates, hy]⟩

/-- C2 (amended): the case table of `expr_to_pat` over the `ExprKind`
variants its match covers — each covered variant either has exactly one
defined pattern image (literal recursing into array and object elements,
infix chain, record update re-expressed as an infix chain, unqualified
variable to binder, bare data constructor to a zero-argument constructor
pattern, application with data-constructor head to a constructor pattern
over the converted arguments, type ascription, wildcard, named pattern to
as-pattern) or fails deterministically with its variant-specific message
(accessor, qualified variable, application with non-constructor head,
lambda, case, if, let, do, record-update suffix).  The `Operator`, `Ado`
and `Negate` variants are not covered by the source match (see the
counterexample) and are excluded here. -/
theorem c2_expr_to_pat_case_table :
    (∀ (sp : SourceSpan) (lit : Literal Expr) (l : Literal Pat),
        lit_expr_to_pat lit = .ok l →
        expr_to_pat ⟨sp, .Literal lit⟩ = .ok ⟨sp, .Literal l⟩) ∧
    (∀ (xs : List Expr) (ps : List Pat),
        expr_to_pat_list xs = .ok ps → lit_expr_to_pat (.Array xs) = .ok (.Array ps)) ∧
    (∀ (xs : List (Symbol × Expr)) (ps : List (Symbol × Pat)),
        expr_to_pat_object xs = .ok ps → lit_expr_to_pat (.Object xs) = .ok (.Object ps)) ∧
    (∀ (sp : SourceSpan) (x : Expr) (xs : List (InfixOp × Expr)) (p : Pat)
        (ps : List (InfixOp × Pat)),
        expr_to_pat x = .ok p → expr_to_pat_pairs xs = .ok ps →
        expr_to_pat ⟨sp, .Infix x xs⟩ = .ok ⟨sp, .Infix p ps⟩) ∧
    (∀ (sp : SourceSpan) (x : Expr) (xs : List (Symbol × Expr)) (p : Pat)
        (ps : List (InfixOp × Pat)),
        expr_to_pat x = .ok p → expr_to_pat_fields xs = .ok ps →
        expr_to_pat ⟨sp, .RecordUpdate x xs⟩ = .ok ⟨sp, .Infix p ps⟩) ∧
    (∀ (sp : SourceSpan) (n : Symbol),
        expr_to_pat ⟨sp, .Var ⟨none, n⟩⟩ = .ok ⟨sp, .Var n⟩) ∧
    (∀ (sp : SourceSpan) (name : QualifiedName),
        expr_to_pat ⟨sp, .DataConstructor name⟩ = .ok ⟨sp, .DataConstructorApp name []⟩) ∧
    (∀ (sp spf : SourceSpan) (name : QualifiedName) (args : List Expr) (ps : List Pat),
        expr_to_pat_list args = .ok ps →
        expr_to_pat ⟨sp, .App ⟨spf, .DataConstructor name⟩ args⟩ =
          .ok ⟨sp, .DataConstructorApp name ps⟩) ∧
    (∀ (sp : SourceSpan) (x : Expr) (ty : Ty) (p : Pat),
        expr_to_pat x = .ok p → expr_to_pat ⟨sp, .Typed x ty⟩ = .ok ⟨sp, .Typed p ty⟩) ∧
    (∀ (sp : SourceSpan), expr_to_pat ⟨sp, .Wildcard⟩ = .ok ⟨sp, .Wildcard⟩) ∧
    (∀ (sp : SourceSpan) (n : Symbol) (x : Expr) (p : Pat),
        expr_to_pat x = .ok p → expr_to_pat ⟨sp, .NamedPat n x⟩ = .ok ⟨sp, .Named n p⟩) ∧
    (∀ (sp : SourceSpan) (x : Expr) (field : Symbol),
        expr_to_pat ⟨sp, .Accessor x field⟩ =
          .error (.msg "Illegal record accessor in pattern")) ∧
    (∀ (sp : SourceSpan) (m : ModuleId) (n : Symbol),
        expr_to_pat ⟨sp, .Var ⟨some m, n⟩⟩ =
          .error (.msg "Illegal qualified name in pattern")) ∧
    (∀ (sp spf : SourceSpan) (kf : ExprKind) (args : List Expr),
        kf.isDataConstructor = false →
        expr_to_pat ⟨sp, .App ⟨spf, kf⟩ args⟩ =
          .error (.msg "illegal pattern in data constructor position")) ∧
    (∀ (sp : SourceSpan) (pats : List Pat) (body : Expr),
        expr_to_pat ⟨sp, .Lam pats body⟩ = .error (.msg "Illegal lambda in pattern")) ∧
    (∀ (sp : SourceSpan) (x : Expr) (branches : List CaseBranch),
        expr_to_pat ⟨sp, .Case x branches⟩ = .error (.msg "Illegal case in pattern")) ∧
    (∀ (sp : SourceSpan) (a b c : Expr),
        expr_to_pat ⟨sp, .If a b c⟩ = .error (.msg "Illegal if in pattern")) ∧
    (∀ (sp : SourceSpan) (decls : List Declaration) (body : Expr),
        expr_to_pat ⟨sp, .Let decls body⟩ = .error (.msg "Illegal let in pattern")) ∧
    (∀ (sp : SourceSpan) (items : List DoItem),
        expr_to_pat ⟨sp, .Do items⟩ = .error (.msg "Illegal do in pattern")) ∧
    (∀ (sp : SourceSpan) (u : List (Symbol × Expr)),
        expr_to_pat ⟨sp, .RecordUpdateSuffix u⟩ =
          .error (.msg "Illegal record update in pattern")) := by
  refine ⟨?_, ?_, ?_, ?_, ?_, fun sp n => rfl, fun sp name => rfl, ?_, ?_, fun sp => rfl,
    ?_, fun sp x field => rfl, fun sp m n => rfl, ?_, fun sp pats body => rfl,
    fun sp x branches => rfl, fun sp a b c => rfl, fun sp decls body => rfl,
    fun sp items => rfl, fun sp u => rfl⟩
  · intro sp lit l h
    simp only [expr_to_pat, h]
  · intro xs ps h
    simp only [lit_expr_to_pat, h]
  · intro xs ps h
    simp only [lit_expr_to_pat, h]
  · intro sp x xs p ps hx hxs
    simp only [expr_to_pat, hx, hxs]
  · intro sp x xs p ps hx hxs
    simp only [expr_to_pat, hx, hxs]
  · intro sp spf name args ps h
    simp only [expr_to_pat, h]
  · intro sp x ty p h
    simp only [expr_to_pat, h]
  · intro sp n x p h
    simp only [expr_to_pat, h]
  · intro sp spf kf args h
    cases kf <;> first
      | rfl
      | exact absurd h (by simp [ExprKind.isDataConstructor])

/-- Witness for C2 at a concrete infix chain with a variable operand. -/
theorem c2_witness :
    expr_to_pat ⟨sp0, .Infix ⟨sp0, .Wildcard⟩ [(.Symbol "+", ⟨sp0, .Var ⟨none, "x"⟩⟩)]⟩ =
      .ok ⟨sp0, .Infix ⟨sp0, .Wildcard⟩ [(.Symbol "+", ⟨sp0, .Var "x"⟩)]⟩ :=
  c2_expr_to_pat_case_table.2.2.2.1 sp0 ⟨sp0, .Wildcard⟩
    [(.Symbol "+", ⟨sp0, .Var ⟨none, "x"⟩⟩)] ⟨sp0, .Wildcard⟩
    [(.Symbol "+", ⟨sp0, .Var "x"⟩)] rfl rfl

/-- Counterexample for C2 as stated: the source match of `expr_to_pat`
has no arm for the `Operator` variant of `ExprKind` (nor for `Ado` or
`Negate`), so on a bare-operator expression it neither produces a pattern
image nor fails with a variant-specific message. -/
theorem c2_counterexample :
    ¬(∃ p, expr_to_pat ⟨sp0, .Operator (.Symbol "+")⟩ = .ok p) ∧
    ¬(∃ s, expr_to_pat ⟨sp0, .Operator (.Symbol "+")⟩ = .error (.msg s)) := by
  have he : expr_to_pat ⟨sp0, .Operator (.Symbol "+")⟩ = .error .unhandledVariant := rfl
  constructor
  · rintro ⟨p, h⟩
    rw [he] at h
    exact Except.noConfusion h
  · rintro ⟨s, h⟩
    rw [he] at h
    exact PatConvError.noConfusion (Except.error.inj h)

/-- Witness for C10: two suffixes in a row chain onto the head itself. -/
theorem c10_witness :
    ∃ g, apply_record_updates ⟨sp0, .Var ⟨none, "r"⟩⟩
        [⟨sp0, .RecordUpdateSuffix [("x", ⟨sp0, .Literal (.Integer 1)⟩)]⟩,
         ⟨sp0, .RecordUpdateSuffix [("y", ⟨sp0, .Literal (.Integer 2)⟩)]⟩] =
      some (.App g []) :=
  c10_all_suffix_empty_args.2 ⟨sp0, .Var ⟨none, "r"⟩⟩ _
    (by intro a ha
        rcases List.mem_cons.mp ha with h | h
        · rw [h]; rfl
        · rcases List.mem_cons.mp h with h' | h'
          · rw [h']; rfl
          · exact absurd h' (List.not_mem_nil a))

/-- Specification-side characterization of a class head (§4.2 of the
spec): the type is a spine of type applications whose head is an
unqualified type constructor and whose spine arguments, in application
order, are all bare type variables (each contributing a parameter with an
empty kind slot). -/
inductive ClassHead : Ty → Symbol → List TypeParameter → Prop where
  | head (sp : SourceSpan) (con : QualifiedName) (h : con.module = none) :
      ClassHead ⟨sp, .TypeConstructor con⟩ con.name []
  | app (sp spx : SourceSpan) (t : Ty) (v : Symbol) (s : Symbol)
      (ps : List TypeParameter) (h : ClassHead t s ps) :
      ClassHead ⟨sp, .TypeApp t ⟨spx, .Var v⟩⟩ s (ps ++ [(v, none)])

theorem constraint_to_class_head_aux_iff (n : Nat) :
    ∀ (c : Ty), sizeOf c ≤ n →
      ∀ (acc : List TypeParameter) (s : Symbol) (ps : List TypeParameter),
        (constraint_to_class_head_aux c acc = some (s, ps) ↔
          ∃ inner, ClassHead c s inner ∧ ps = inner ++ acc.reverse) := by
  induction n with
  | zero =>
    intro c hc
    obtain ⟨sp, k⟩ := c
    simp [Ty.mk.sizeOf_spec] at hc
  | succ n ih =>
    intro c hc acc s ps
    obtain ⟨sp, k⟩ := c
    cases k with
    | TypeConstructor con =>
      constructor
      · intro h
        simp only [constraint_to_class_head_aux] at h
        by_cases hq : con.is_actually_qualified
        · rw [if_pos hq] at h
          exact Option.noConfusion h
        · rw [if_neg hq] at h
          obtain ⟨hs, hps⟩ := Prod.mk.injEq .. ▸ Option.some.inj h
          refine ⟨[], ?_, by simp [hps.symm]⟩
          have hm : con.module = none := by
            cases hcon : con.module with
            | none => rfl
            | some m => exact absurd (by simp [QualifiedName.is_actually_qualified, hcon]) hq
          exact hs ▸ ClassHead.head sp con hm
      · rintro ⟨inner, hch, hps⟩
        cases hch with
        | head _ _ hm =>
          have hq : con.is_actually_qualified = false := by
            simp [QualifiedName.is_actually_qualified, hm]
          simp only [constraint_to_class_head_aux, hq, Bool.false_eq_true, if_false]
          simp [hps]
    | TypeApp f x =>
      obtain ⟨spx, kx⟩ := x
      have hf : sizeOf f ≤ n := by
        simp [Ty.mk.sizeOf_spec, TypeKind.TypeApp.sizeOf_spec] at hc
        omega
      cases kx with
      | Var v =>
        constructor
        · intro h
          simp only [constraint_to_class_head_aux] at h
          obtain ⟨inner, hch, hps⟩ := (ih f hf (acc ++ [(v, none)]) s ps).mp h
          refine ⟨inner ++ [(v, none)], ClassHead.app sp spx f v s inner hch, ?_⟩
          simp [hps]
        · rintro ⟨inner, hch, hps⟩
          cases hch with
          | app _ _ _ _ _ ps0 h0 =>
            simp only [constraint_to_class_head_aux]
            refine (ih f hf (acc ++ [(v, none)]) s ps).mpr ⟨ps0, h0, ?_⟩
            simp [hps]
      | TypeConstructor con =>
        constructor
        · intro h
          exact Option.noConfusion h
        · rintro ⟨inner, hch, hps⟩
          cases hch
      | TypeApp a b =>
        constructor
        · intro h
          exact Option.noConfusion h
        · rintro ⟨inner, hch, hps⟩
          cases hch
      | Arrow a b =>
        constructor
        · intro h
          exact Option.noConfusion h
        · rintro ⟨inner, hch, hps⟩
          cases hch
    | Var v =>
      constructor
      · intro h
        exact Option.noConfusion h
      · rintro ⟨inner, hch, hps⟩
        cases hch
    | Arrow a b =>
      constructor
      · intro h
        exact Option.noConfusion h
      · rintro ⟨inner, hch, hps⟩
        cases hch

/-- C7: `constraint_to_class_head` returns `some (class name, parameters
in application order)` exactly when the constraint is a spine of type
applications whose head is an unqualified type constructor and whose
arguments are all bare type variables; a qualified head, a non-variable
argument, or a non-constructor spine head yields `none`. -/
theorem c7_constraint_to_class_head_iff (c : Ty) (s : Symbol) (ps : List TypeParameter) :
    constraint_to_class_head c = some (s, ps) ↔ ClassHead c s ps := by
  have h := constraint_to_class_head_aux_iff (sizeOf c) c (le_refl _) [] s ps
  simpa [constraint_to_class_head] using h

/-- Witness for C7 at the concrete constraint `Foo a`. -/
theorem c7_witness :
    constraint_to_class_head
        ⟨sp0, .TypeApp ⟨sp0, .TypeConstructor ⟨none, "Foo"⟩⟩ ⟨sp0, .Var "a"⟩⟩ =
      some ("Foo", [("a", none)]) :=
  (c7_constraint_to_class_head_iff _ "Foo" [("a", none)]).mpr
    (ClassHead.app sp0 sp0 ⟨sp0, .TypeConstructor ⟨none, "Foo"⟩⟩ "a" "Foo" []
      (ClassHead.head sp0 ⟨none, "Foo"⟩ rfl))

/-- Failure values of the renaming pass (`src/rename.rs`).  The Rust code
panics at each of these sites: `todo!` for an unknown variable, a
duplicate pattern variable, pattern guards and every unsupported node
shape; `assert!`/`expect` for an operation on an empty scope stack
(`pop_scope` and `top_scope`). -/
inductive RenameError where
  | unknownVariable (v : QualifiedName)
  | duplicatePatternVariable (v : Symbol)
  | unsupportedPat
  | unsupportedExpr
  | guardsNotImplemented
  | emptyScopeStack
  deriving DecidableEq, Repr

/-- Embeds the `Renamer` state (`src/rename.rs` lines 33-38).  The
`HashMap` module scope is carried as the insertion-ordered association
list it was collected from; the `HashSet` local scopes as lists of
symbols with no duplicates inserted. -/
structure Renamer where
  module_scope : List (QualifiedName × AbsoluteName)
  local_scopes : List (List Symbol)
  deriving DecidableEq, Repr

/-- Lookup in the module scope (`HashMap::get`): the last insertion for a
key wins, as when collecting an iterator into a `HashMap`. -/
def Renamer.scopeGet (r : Renamer) (q : QualifiedName) : Option AbsoluteName :=
  (r.module_scope.reverse.find? (fun p => p.1 == q)).map (·.2)

/-- Embeds `Renamer::push_scope` (`src/rename.rs` lines 41-43). -/
def Renamer.push_scope (r : Renamer) : Renamer :=
  { r with local_scopes := [] :: r.local_scopes }

/-- Embeds `Renamer::pop_scope` (`src/rename.rs` lines 45-48); the
`assert!` on an empty stack is the `emptyScopeStack` error. -/
def Renamer.pop_scope (r : Renamer) : Except RenameError Renamer :=
  match r.local_scopes with
  | [] => .error .emptyScopeStack
  | _ :: rest => .ok { r with local_scopes := rest }

/-- Embeds `Renamer::top_scope` (`src/rename.rs` lines 50-54); the
`expect` on an empty stack is the `emptyScopeStack` error. -/
def Renamer.top_scope (r : Renamer) : Except RenameError (List Symbol) :=
  match r.local_scopes with
  | [] => .error .emptyScopeStack
  | s :: _ => .ok s

/-- Embeds `impl Rename for PatKind` (`src/rename.rs` lines 127-138): a
variable binder is inserted into the top scope, failing on a duplicate in
that same scope; every other pattern shape is an unimplemented `todo!`. -/
def renamePatKind : PatKind → Renamer → Except RenameError (PatKind × Renamer)
  | .Var v, r =>
    match r.local_scopes with
    | [] => .error .emptyScopeStack
    | s :: rest =>
      if s.contains v then .error (.duplicatePatternVariable v)
      else .ok (.Var v, { r with local_scopes := (v :: s) :: rest })
  | _, _ => .error .unsupportedPat

/-- Renaming of a located pattern (`impl Rename for Located<T>`,
`src/rename.rs` lines 73-80): descend into the inner node. -/
def renamePat : Pat → Renamer → Except RenameError (Pat × Renamer)
  | ⟨sp, k⟩, r =>
    match renamePatKind k r with
    | .error e => .error e
    | .ok (k', r') => .ok (⟨sp, k'⟩, r')

/-- In-place renaming of a pattern list (the `for ref mut pat in pats`
loop of the `Lam` arm, which iterates over the list itself). -/
def renamePats : List Pat → Renamer → Except RenameError (List Pat × Renamer)
  | [], r => .ok ([], r)
  | p :: rest, r =>
    match renamePat p r with
    | .error e => .error e
    | .ok (p', r') =>
      match renamePats rest r' with
      | .error e => .error e
      | .ok (rest', r'') => .ok (p' :: rest', r'')

mutual

/-- Renaming of a located expression (`impl Rename for Located<T>`). -/
def renameExpr : Expr → Renamer → Except RenameError (Expr × Renamer)
  | ⟨sp, k⟩, r =>
    match renameExprKind k r with
    | .error e => .error e
    | .ok (k', r') => .ok (⟨sp, k'⟩, r')

/-- Embeds `impl Rename for ExprKind` (`src/rename.rs` lines 140-165):
a variable occurrence is left untouched when unqualified and bound in the
top scope, otherwise resolved through the module scope (an absent entry
is the unknown-variable `todo!`); a lambda pushes a scope, renames its
patterns then its body, and pops; every other shape is `todo!`. -/
def renameExprKind : ExprKind → Renamer → Except RenameError (ExprKind × Renamer)
  | .Var v, r =>
    match r.top_scope with
    | .error e => .error e
    | .ok local_vars =>
      if v.module.isNone && local_vars.contains v.name then .ok (.Var v, r)
      else
        match r.scopeGet v with
        | none => .error (.unknownVariable v)
        | some abs => .ok (.Var abs.to_qualified_name, r)
  | .Lam pats body, r =>
    match renamePats pats r.push_scope with
    | .error e => .error e
    | .ok (pats', r1) =>
      match renameExpr body r1 with
      | .error e => .error e
      | .ok (body', r2) =>
        match r2.pop_scope with
        | .error e => .error e
        | .ok r3 => .ok (.Lam pats' body', r3)
  | _, _ => .error .unsupportedExpr

end

/-- Embeds `impl Rename for PossiblyGuardedExpr` (`src/rename.rs` lines
118-125): unconditional bodies are renamed, guarded ones are `todo!`. -/
def renamePossiblyGuardedExpr :
    PossiblyGuardedExpr → Renamer → Except RenameError (PossiblyGuardedExpr × Renamer)
  | .Unconditional e, r =>
    match renameExpr e r with
    | .error e' => .error e'
    | .ok (e', r') => .ok (.Unconditional e', r')
  | .Guarded _, _ => .error .guardsNotImplemented

/-- The `for ref mut pat in self.pats.clone()` loop of the `CaseBranch`
renaming (`src/rename.rs` line 110): each pattern clone is renamed — its
scope insertions and failures are observable through the threaded renamer
— but the rewritten clone is dropped, so only the renamer comes back. -/
def renamePatsCloned : List Pat → Renamer → Except RenameError Renamer
  | [], r => .ok r
  | p :: rest, r =>
    match renamePat p r with
    | .error e => .error e
    | .ok (_, r') => renamePatsCloned rest r'

/-- Embeds `impl Rename for CaseBranch` (`src/rename.rs` lines 107-116):
push one scope, rename the patterns (through clones, insertions kept,
node rewrites dropped), rename the body in place, pop the scope. -/
def renameCaseBranch (cb : CaseBranch) (r : Renamer) :
    Except RenameError (CaseBranch × Renamer) :=
  match cb with
  | ⟨pats, expr⟩ =>
    match renamePatsCloned pats r.push_scope with
    | .error e => .error e
    | .ok r2 =>
      match renamePossiblyGuardedExpr expr r2 with
      | .error e => .error e
      | .ok (e', r3) =>
        match r3.pop_scope with
        | .error e => .error e
        | .ok r4 => .ok (⟨pats, e'⟩, r4)

/-- Embeds `impl Rename for Type` (`src/rename.rs` lines 101-105):
type-level renaming is an explicit no-op placeholder. -/
def renameTy (t : Ty) (r : Renamer) : Except RenameError (Ty × Renamer) :=
  .ok (t, r)

/-- Embeds `impl Rename for Option<T>` (`src/rename.rs` lines 61-71) at
the type-signature slot. -/
def renameOptionTy : Option Ty → Renamer → Except RenameError (Option Ty × Renamer)
  | none, r => .ok (none, r)
  | some t, r =>
    match renameTy t r with
    | .error e => .error e
    | .ok (t', r') => .ok (some t', r')

/-- Modelled from the spec: `ValueDecl` lives in indexed_module.rs, which
is not under src/.  Per §6, a value declaration has a type-signature slot
and an ordered list of pattern-matching equations (clauses). -/
structure ValueDecl where
  type_ : Option Ty
  equations : List CaseBranch

/-- The `for ref mut x in self.equations.clone()` loop of the `ValueDecl`
renaming (`src/rename.rs` line 95): each equation clone is renamed, its
rewritten form dropped, only the renamer state threads on. -/
def renameEquationsCloned : List CaseBranch → Renamer → Except RenameError Renamer
  | [], r => .ok r
  | e1 :: rest, r =>
    match renameCaseBranch e1 r with
    | .error e => .error e
    | .ok (_, r') => renameEquationsCloned rest r'

/-- Embeds `impl Rename for ValueDecl` (`src/rename.rs` lines 92-99):
rename the type-signature slot in place, then each equation through a
clone whose rewrites are discarded. -/
def renameValueDecl (v : ValueDecl) (r : Renamer) :
    Except RenameError (ValueDecl × Renamer) :=
  match renameOptionTy v.type_ r with
  | .error e => .error e
  | .ok (ty', r1) =>
    match renameEquationsCloned v.equations r1 with
    | .error e => .error e
    | .ok r2 => .ok ({ v with type_ := ty' }, r2)

/-- Modelled from the spec: `IndexedModule` lives in indexed_module.rs,
which is not under src/.  Per §6 it provides a list of named value
declarations (its type and class declarations are never walked by the
renamer, `src/rename.rs` lines 87-88). -/
structure IndexedModule where
  values : List (Symbol × ValueDecl)

/-- The `for (_, ref mut v) in self.values.clone()` loop of the
`IndexedModule` renaming (`src/rename.rs` line 84): every value
declaration is renamed through a clone, and the rewritten clone is
dropped. -/
def renameValuesCloned : List (Symbol × ValueDecl) → Renamer → Except RenameError Renamer
  | [], r => .ok r
  | (_, v) :: rest, r =>
    match renameValueDecl v r with
    | .error e => .error e
    | .ok (_, r') => renameValuesCloned rest r'

/-- Embeds `impl Rename for IndexedModule` (`src/rename.rs` lines
82-90): the stored module comes back as it went in, because the loop
renames clones of its value declarations. -/
def renameIndexedModule (m : IndexedModule) (r : Renamer) :
    Except RenameError (IndexedModule × Renamer) :=
  match renameValuesCloned m.values r with
  | .error e => .error e
  | .ok r' => .ok (m, r')

/-- Embeds `rename_module` (`src/rename.rs` lines 11-31): build the
module scope from the imported declarations (`(qualifier as aliased or
none, declaration id)` pairs), seed the local-scope stack with one empty
scope, and rename the module.  The interning context parameter `db` is
dropped: symbols are carried directly. -/
def rename_module (module : IndexedModule)
    (imported_decls : List (Option ModuleId × DeclId)) : Except RenameError IndexedModule :=
  let module_scope := imported_decls.map
    (fun qi => (QualifiedName.mk qi.1 qi.2.name, AbsoluteName.mk qi.2.module qi.2.name))
  let r : Renamer := ⟨module_scope, [[]]⟩
  match renameIndexedModule module r with
  | .error e => .error e
  | .ok (m', _) => .ok m'

/-- C3: for a variable occurrence, if it is unqualified and its symbol is
in the top-of-stack local scope it is left unchanged; otherwise it is
looked up by its full `QualifiedName` in the module scope — found: the
occurrence is rewritten to the resolved `AbsoluteName` re-expressed as a
qualified name anchored to its defining module; not found: an
unresolved-name error, never a silent fallback to local. -/
theorem c3_var_occurrence_resolution (v : QualifiedName) (r : Renamer)
    (s : List Symbol) (rest : List (List Symbol)) (h : r.local_scopes = s :: rest) :
    ((v.module.isNone && s.contains v.name) = true →
        renameExprKind (.Var v) r = .ok (.Var v, r)) ∧
    ((v.module.isNone && s.contains v.name) = false →
      (∀ abs, r.scopeGet v = some abs →
          renameExprKind (.Var v) r = .ok (.Var abs.to_qualified_name, r)) ∧
      (r.scopeGet v = none →
          renameExprKind (.Var v) r = .error (.unknownVariable v))) := by
  have htop : r.top_scope = .ok s := by
    unfold Renamer.top_scope
    rw [h]
  refine ⟨?_, ?_⟩
  · intro hloc
    simp only [renameExprKind, htop, hloc, if_true]
  · intro hloc
    refine ⟨?_, ?_⟩
    · intro abs habs
      simp only [renameExprKind, htop, hloc, Bool.false_eq_true, if_false, habs]
    · intro hnone
      simp only [renameExprKind, htop, hloc, Bool.false_eq_true, if_false, hnone]

/-- Witness for C3: an unqualified occurrence absent from the top scope
is rewritten through the module scope to its defining module. -/
theorem c3_witness :
    renameExprKind (.Var ⟨none, "g"⟩)
        ⟨[(⟨none, "g"⟩, ⟨"M", "g"⟩)], [["x"]]⟩ =
      .ok (.Var ⟨some "M", "g"⟩, ⟨[(⟨none, "g"⟩, ⟨"M", "g"⟩)], [["x"]]⟩) :=
  ((c3_var_occurrence_resolution ⟨none, "g"⟩ ⟨[(⟨none, "g"⟩, ⟨"M", "g"⟩)], [["x"]]⟩
      ["x"] [] rfl).2 rfl).1 ⟨"M", "g"⟩ rfl

/-- C8: renaming a variable-binder pattern fails exactly when its symbol
is already in the top-of-stack scope, and otherwise inserts the symbol
there — an equal binding in an enclosing scope (the `rest` of the stack,
arbitrary here) does not matter. -/
theorem c8_pattern_binder_insert (v : Symbol) (r : Renamer)
    (s : List Symbol) (rest : List (List Symbol)) (h : r.local_scopes = s :: rest) :
    (s.contains v = true →
        renamePatKind (.Var v) r = .error (.duplicatePatternVariable v)) ∧
    (s.contains v = false →
        renamePatKind (.Var v) r =
          .ok (.Var v, { r with local_scopes := (v :: s) :: rest })) := by
  obtain ⟨ms, ls⟩ := r
  simp only at h
  subst h
  refine ⟨?_, ?_⟩
  · intro hdup
    simp only [renamePatKind, hdup, if_true]
  · intro hnew
    simp only [renamePatKind, hnew, Bool.false_eq_true, if_false]

/-- Witness for C8: the binder `v` is free in the top scope and succeeds
although the enclosing scope already binds `v`. -/
theorem c8_witness :
    renamePatKind (.Var "v") ⟨[], [["y"], ["v"]]⟩ =
      .ok (.Var "v", ⟨[], [["v", "y"], ["v"]]⟩) :=
  (c8_pattern_binder_insert "v" ⟨[], [["y"], ["v"]]⟩ ["y"] [["v"]] rfl).2 rfl

/-- Body of the single equation of the C1 module: a reference to the
imported name `g`, written unqualified. -/
def gBody : Expr := ⟨sp0, .Var ⟨none, "g"⟩⟩

/-- Value declaration `f` whose only equation has no parameters and the
body `g`. -/
def gDecl : ValueDecl := ⟨none, [⟨[], .Unconditional gBody⟩]⟩

/-- A one-declaration indexed module. -/
def gModule : IndexedModule := ⟨[("f", gDecl)]⟩

/-- Import list bringing `g` of module `Other` into scope unqualified. -/
def gImports : List (Option ModuleId × DeclId) := [(none, ⟨"Other", "g"⟩)]

/-- The module scope `rename_module` builds from `gImports`. -/
def gScope : List (QualifiedName × AbsoluteName) := [(⟨none, "g"⟩, ⟨"Other", "g"⟩)]

/-- C1 fails on the code: `rename_module` returns the module exactly as
it went in — the occurrence of `g` is still its qualified-as-written form
— because the traversal iterates over clones (`self.values.clone()`,
`self.equations.clone()`, `src/rename.rs` lines 84 and 95) and drops the
rewritten clones.  The second conjunct shows the very rewrite the
traversal computes (and in-place mutation would have stored): renaming
the equation itself rewrites `g` to `Other.g`. -/
theorem c1_rename_module_discards_rewrites :
    rename_module gModule gImports = .ok gModule ∧
    renameCaseBranch ⟨[], .Unconditional gBody⟩ ⟨gScope, [[]]⟩ =
      .ok (⟨[], .Unconditional ⟨sp0, .Var ⟨some "Other", "g"⟩⟩⟩, ⟨gScope, [[]]⟩) :=
  ⟨rfl, rfl⟩

/-- Scope-stack invariant for a rename step returning a value and a
renamer: the step never hits an empty-stack panic, and on success the
tail of the scope stack below the current top is exactly preserved. -/
def ScopesOk {α : Type} (res : Except RenameError (α × Renamer))
    (rest : List (List Symbol)) : Prop :=
  res ≠ .error .emptyScopeStack ∧
    ∀ x r', res = .ok (x, r') → ∃ s', r'.local_scopes = s' :: rest

/-- Scope-stack invariant for a rename step returning only the renamer
(the clone-discarding loops). -/
def ScopesOkR (res : Except RenameError Renamer) (rest : List (List Symbol)) : Prop :=
  res ≠ .error .emptyScopeStack ∧
    ∀ r', res = .ok r' → ∃ s', r'.local_scopes = s' :: rest

theorem ScopesOk_error {α : Type} {rest : List (List Symbol)} (e : RenameError)
    (he : e ≠ RenameError.emptyScopeStack) :
    ScopesOk (Except.error e : Except RenameError (α × Renamer)) rest :=
  ⟨fun h => he (Except.error.inj h), fun _ _ h => Except.noConfusion h⟩

theorem ScopesOk_ok {α : Type} {rest : List (List Symbol)} (x : α) (r' : Renamer)
    (s' : List Symbol) (h : r'.local_scopes = s' :: rest) :
    ScopesOk (Except.ok (x, r') : Except RenameError (α × Renamer)) rest :=
  ⟨fun h' => Except.noConfusion h', fun y r'' h' => by
    have h2 := Except.ok.inj h'
    have hr : r' = r'' := congrArg Prod.snd h2
    exact ⟨s', hr ▸ h⟩⟩

theorem ScopesOkR_error {rest : List (List Symbol)} (e : RenameError)
    (he : e ≠ RenameError.emptyScopeStack) :
    ScopesOkR (Except.error e) rest :=
  ⟨fun h => he (Except.error.inj h), fun _ h => Except.noConfusion h⟩

theorem ScopesOkR_ok {rest : List (List Symbol)} (r' : Renamer)
    (s' : List Symbol) (h : r'.local_scopes = s' :: rest) :
    ScopesOkR (Except.ok r') rest :=
  ⟨fun h' => Except.noConfusion h', fun _r'' h' => ⟨s', Except.ok.inj h' ▸ h⟩⟩

theorem scopes_renamePatKind (k : PatKind) (r : Renamer) (s : List Symbol)
    (rest : List (List Symbol)) (h : r.local_scopes = s :: rest) :
    ScopesOk (renamePatKind k r) rest := by
  cases k with
  | Var v =>
    obtain ⟨ms, ls⟩ := r
    simp only at h
    subst h
    simp only [renamePatKind]
    by_cases hc : s.contains v = true
    · rw [if_pos hc]
      exact ScopesOk_error _ (fun hh => RenameError.noConfusion hh)
    · rw [if_neg hc]
      exact ScopesOk_ok _ _ (v :: s) rfl
  | Literal l => exact ScopesOk_error _ (fun hh => RenameError.noConfusion hh)
  | Infix x xs => exact ScopesOk_error _ (fun hh => RenameError.noConfusion hh)
  | DataConstructorApp n args => exact ScopesOk_error _ (fun hh => RenameError.noConfusion hh)
  | Wildcard => exact ScopesOk_error _ (fun hh => RenameError.noConfusion hh)
  | Named n p => exact ScopesOk_error _ (fun hh => RenameError.noConfusion hh)
  | Typed p ty => exact ScopesOk_error _ (fun hh => RenameError.noConfusion hh)

theorem scopes_renamePat (p : Pat) (r : Renamer) (s : List Symbol)
    (rest : List (List Symbol)) (h : r.local_scopes = s :: rest) :
    ScopesOk (renamePat p r) rest := by
  obtain ⟨sp, k⟩ := p
  have hk := scopes_renamePatKind k r s rest h
  simp only [renamePat]
  cases hpk : renamePatKind k r with
  | error e =>
    rw [hpk] at hk
    exact ScopesOk_error e (fun hh => hk.1 (by rw [hh]))
  | ok kr =>
    obtain ⟨k', r'⟩ := kr
    rw [hpk] at hk
    obtain ⟨s', hs'⟩ := hk.2 k' r' rfl
    exact ScopesOk_ok _ r' s' hs'

theorem scopes_renamePats (pats : List Pat) :
    ∀ (r : Renamer) (s : List Symbol) (rest : List (List Symbol)),
      r.local_scopes = s :: rest → ScopesOk (renamePats pats r) rest := by
  induction pats with
  | nil => exact fun r s rest h => ScopesOk_ok [] r s h
  | cons p ps ih =>
    intro r s rest h
    have hp := scopes_renamePat p r s rest h
    simp only [renamePats]
    cases hpp : renamePat p r with
    | error e =>
      rw [hpp] at hp
      exact ScopesOk_error e (fun hh => hp.1 (by rw [hh]))
    | ok pr =>
      obtain ⟨p', r'⟩ := pr
      rw [hpp] at hp
      obtain ⟨s', hs'⟩ := hp.2 p' r' rfl
      have hps := ih r' s' rest hs'
      dsimp only
      cases hrest : renamePats ps r' with
      | error e =>
        rw [hrest] at hps
        exact ScopesOk_error e (fun hh => hps.1 (by rw [hh]))
      | ok rr =>
        obtain ⟨ps', r''⟩ := rr
        rw [hrest] at hps
        obtain ⟨s'', hs''⟩ := hps.2 ps' r'' rfl
        exact ScopesOk_ok _ r'' s'' hs''

theorem scopes_renamePatsCloned (pats : List Pat) :
    ∀ (r : Renamer) (s : List Symbol) (rest : List (List Symbol)),
      r.local_scopes = s :: rest → ScopesOkR (renamePatsCloned pats r) rest := by
  induction pats with
  | nil => exact fun r s rest h => ScopesOkR_ok r s h
  | cons p ps ih =>
    intro r s rest h
    have hp := scopes_renamePat p r s rest h
    simp only [renamePatsCloned]
    cases hpp : renamePat p r with
    | error e =>
      rw [hpp] at hp
      exact ScopesOkR_error e (fun hh => hp.1 (by rw [hh]))
    | ok pr =>
      obtain ⟨p', r'⟩ := pr
      rw [hpp] at hp
      obtain ⟨s', hs'⟩ := hp.2 p' r' rfl
      exact ih r' s' rest hs'

theorem scopes_renameExprKind_aux (n : Nat) :
    ∀ (k : ExprKind), sizeOf k ≤ n →
      ∀ (r : Renamer) (s : List Symbol) (rest : List (List Symbol)),
        r.local_scopes = s :: rest → ScopesOk (renameExprKind k r) rest := by
  induction n with
  | zero =>
    intro k hk
    exfalso
    cases k <;> simp_arith at hk
  | succ n ih =>
    intro k hk r s rest h
    cases k
    case Var v =>
      have htop : r.top_scope = .ok s := by
        unfold Renamer.top_scope
        rw [h]
      simp only [renameExprKind, htop]
      by_cases hloc : (v.module.isNone && s.contains v.name) = true
      · rw [if_pos hloc]
        exact ScopesOk_ok _ r s h
      · rw [if_neg hloc]
        cases hget : r.scopeGet v with
        | none => exact ScopesOk_error _ (fun hh => RenameError.noConfusion hh)
        | some abs => exact ScopesOk_ok _ r s h
    case Lam pats body =>
      have h1 : (r.push_scope).local_scopes = [] :: (s :: rest) := by
        simp [Renamer.push_scope, h]
      have hps := scopes_renamePats pats r.push_scope [] (s :: rest) h1
      simp only [renameExprKind]
      cases hp : renamePats pats r.push_scope with
      | error e =>
        rw [hp] at hps
        exact ScopesOk_error e (fun hh => hps.1 (by rw [hh]))
      | ok pr =>
        obtain ⟨pats', r1⟩ := pr
        rw [hp] at hps
        obtain ⟨s1, hs1⟩ := hps.2 pats' r1 rfl
        obtain ⟨spb, kb⟩ := body
        have hkb : sizeOf kb ≤ n := by
          simp_arith [ExprKind.Lam.sizeOf_spec, Expr.mk.sizeOf_spec] at hk
          omega
        have hbody := ih kb hkb r1 s1 (s :: rest) hs1
        simp only [renameExpr]
        cases hb : renameExprKind kb r1 with
        | error e =>
          rw [hb] at hbody
          exact ScopesOk_error e (fun hh => hbody.1 (by rw [hh]))
        | ok br =>
          obtain ⟨kb', r2⟩ := br
          rw [hb] at hbody
          obtain ⟨s2, hs2⟩ := hbody.2 kb' r2 rfl
          have hpop : r2.pop_scope = .ok { r2 with local_scopes := s :: rest } := by
            unfold Renamer.pop_scope
            rw [hs2]
          simp only [hpop]
          exact ScopesOk_ok _ _ s rfl
    all_goals exact ScopesOk_error _ (fun hh => RenameError.noConfusion hh)

theorem scopes_renameExpr (p : Expr) (r : Renamer) (s : List Symbol)
    (rest : List (List Symbol)) (h : r.local_scopes = s :: rest) :
    ScopesOk (renameExpr p r) rest := by
  obtain ⟨sp, k⟩ := p
  have hk := scopes_renameExprKind_aux (sizeOf k) k (le_refl _) r s rest h
  simp only [renameExpr]
  cases hke : renameExprKind k r with
  | error e =>
    rw [hke] at hk
    exact ScopesOk_error e (fun hh => hk.1 (by rw [hh]))
  | ok kr =>
    obtain ⟨k', r'⟩ := kr
    rw [hke] at hk
    obtain ⟨s', hs'⟩ := hk.2 k' r' rfl
    exact ScopesOk_ok _ r' s' hs'

theorem scopes_renamePossiblyGuardedExpr (g : PossiblyGuardedExpr) (r : Renamer)
    (s : List Symbol) (rest : List (List Symbol)) (h : r.local_scopes = s :: rest) :
    ScopesOk (renamePossiblyGuardedExpr g r) rest := by
  cases g with
  | Guarded gs => exact ScopesOk_error _ (fun hh => RenameError.noConfusion hh)
  | Unconditional e =>
    have he := scopes_renameExpr e r s rest h
    simp only [renamePossiblyGuardedExpr]
    cases hee : renameExpr e r with
    | error e' =>
      rw [hee] at he
      exact ScopesOk_error e' (fun hh => he.1 (by rw [hh]))
    | ok er =>
      obtain ⟨e', r'⟩ := er
      rw [hee] at he
      obtain ⟨s', hs'⟩ := he.2 e' r' rfl
      exact ScopesOk_ok _ r' s' hs'

theorem scopes_renameCaseBranch (cb : CaseBranch) (r : Renamer) (s : List Symbol)
    (rest : List (List Symbol)) (h : r.local_scopes = s :: rest) :
    ScopesOk (renameCaseBranch cb r) rest := by
  obtain ⟨pats, expr⟩ := cb
  have h1 : (r.push_scope).local_scopes = [] :: (s :: rest) := by
    simp [Renamer.push_scope, h]
  have hps := scopes_renamePatsCloned pats r.push_scope [] (s :: rest) h1
  simp only [renameCaseBranch]
  cases hp : renamePatsCloned pats r.push_scope with
  | error e =>
    rw [hp] at hps
    exact ScopesOk_error e (fun hh => hps.1 (by rw [hh]))
  | ok r2 =>
    rw [hp] at hps
    obtain ⟨s1, hs1⟩ := hps.2 r2 rfl
    have hpge := scopes_renamePossiblyGuardedExpr expr r2 s1 (s :: rest) hs1
    dsimp only
    cases hpe : renamePossiblyGuardedExpr expr r2 with
    | error e =>
      rw [hpe] at hpge
      exact ScopesOk_error e (fun hh => hpge.1 (by rw [hh]))
    | ok er =>
      obtain ⟨e', r3⟩ := er
      rw [hpe] at hpge
      obtain ⟨s2, hs2⟩ := hpge.2 e' r3 rfl
      have hpop : r3.pop_scope = .ok { r3 with local_scopes := s :: rest } := by
        unfold Renamer.pop_scope
        rw [hs2]
      dsimp only
      simp only [hpop]
      exact ScopesOk_ok _ _ s rfl

theorem renameOptionTy_eq (t : Option Ty) (r : Renamer) :
    renameOptionTy t r = .ok (t, r) := by
  cases t <;> rfl

theorem scopes_renameEquationsCloned (eqs : List CaseBranch) :
    ∀ (r : Renamer) (s : List Symbol) (rest : List (List Symbol)),
      r.local_scopes = s :: rest → ScopesOkR (renameEquationsCloned eqs r) rest := by
  induction eqs with
  | nil => exact fun r s rest h => ScopesOkR_ok r s h
  | cons e1 es ih =>
    intro r s rest h
    have hcb := scopes_renameCaseBranch e1 r s rest h
    simp only [renameEquationsCloned]
    cases hc : renameCaseBranch e1 r with
    | error e =>
      rw [hc] at hcb
      exact ScopesOkR_error e (fun hh => hcb.1 (by rw [hh]))
    | ok cr =>
      obtain ⟨cb', r'⟩ := cr
      rw [hc] at hcb
      obtain ⟨s', hs'⟩ := hcb.2 cb' r' rfl
      exact ih r' s' rest hs'

theorem scopes_renameValueDecl (v : ValueDecl) (r : Renamer) (s : List Symbol)
    (rest : List (List Symbol)) (h : r.local_scopes = s :: rest) :
    ScopesOk (renameValueDecl v r) rest := by
  have heq := scopes_renameEquationsCloned v.equations r s rest h
  simp only [renameValueDecl, renameOptionTy_eq]
  cases hc : renameEquationsCloned v.equations r with
  | error e =>
    rw [hc] at heq
    exact ScopesOk_error e (fun hh => heq.1 (by rw [hh]))
  | ok r' =>
    rw [hc] at heq
    obtain ⟨s', hs'⟩ := heq.2 r' rfl
    exact ScopesOk_ok _ r' s' hs'

theorem scopes_renameValuesCloned (vs : List (Symbol × ValueDecl)) :
    ∀ (r : Renamer) (s : List Symbol) (rest : List (List Symbol)),
      r.local_scopes = s :: rest → ScopesOkR (renameValuesCloned vs r) rest := by
  induction vs with
  | nil => exact fun r s rest h => ScopesOkR_ok r s h
  | cons v vs' ih =>
    intro r s rest h
    obtain ⟨name, vd⟩ := v
    have hv := scopes_renameValueDecl vd r s rest h
    simp only [renameValuesCloned]
    cases hc : renameValueDecl vd r with
    | error e =>
      rw [hc] at hv
      exact ScopesOkR_error e (fun hh => hv.1 (by rw [hh]))
    | ok vr =>
      obtain ⟨vd', r'⟩ := vr
      rw [hc] at hv
      obtain ⟨s', hs'⟩ := hv.2 vd' r' rfl
      exact ih r' s' rest hs'

/-- C6: a module rename traversal that completes keeps the local-scope
stack at its initial depth (each push is matched by exactly one pop), and
starting from a non-empty stack — `rename_module` seeds depth one — the
empty-stack panic of `pop_scope`/`top_scope` is never reached. -/
theorem c6_scope_stack_balance (m : IndexedModule) (r : Renamer)
    (h : r.local_scopes ≠ []) :
    renameIndexedModule m r ≠ .error .emptyScopeStack ∧
    (∀ m' r', renameIndexedModule m r = .ok (m', r') →
        r'.local_scopes.length = r.local_scopes.length) := by
  obtain ⟨s, rest, hsr⟩ : ∃ s rest, r.local_scopes = s :: rest := by
    cases hls : r.local_scopes with
    | nil => exact absurd hls h
    | cons a b => exact ⟨a, b, rfl⟩
  have hv := scopes_renameValuesCloned m.values r s rest hsr
  cases hvc : renameValuesCloned m.values r with
  | error e =>
    rw [hvc] at hv
    have he : renameIndexedModule m r = .error e := by
      simp only [renameIndexedModule, hvc]
    rw [he]
    exact ⟨fun hh => hv.1 (by rw [Except.error.inj hh]),
      fun m' r' hok => Except.noConfusion hok⟩
  | ok rr =>
    rw [hvc] at hv
    obtain ⟨s', hs'⟩ := hv.2 rr rfl
    have he : renameIndexedModule m r = .ok (m, rr) := by
      simp only [renameIndexedModule, hvc]
    rw [he]
    refine ⟨fun hh => Except.noConfusion hh, ?_⟩
    intro m' r' hok
    have h2 := Except.ok.inj hok
    have hr : rr = r' := congrArg Prod.snd h2
    rw [← hr, hs', hsr]
    simp only [List.length_cons]

/-- Module for the C6 witness: `f a = \x -> x`, exercising both the
case-branch scope push/pop and the nested lambda push/pop. -/
def lamModule : IndexedModule :=
  ⟨[("f", ⟨none, [⟨[⟨sp0, .Var "a"⟩],
    .Unconditional ⟨sp0, .Lam [⟨sp0, .Var "x"⟩] ⟨sp0, .Var ⟨none, "x"⟩⟩⟩⟩]⟩)]⟩

/-- Renamer state as seeded by `rename_module`: empty module scope, one
empty local scope. -/
def lamRenamer : Renamer := ⟨[], [[]]⟩

/-- Witness for C6: the concrete traversal completes, never hits the
empty-stack panic, and returns the stack at its initial depth. -/
theorem c6_witness :
    renameIndexedModule lamModule lamRenamer = .ok (lamModule, lamRenamer) ∧
    renameIndexedModule lamModule lamRenamer ≠ .error .emptyScopeStack :=
  ⟨rfl, (c6_scope_stack_balance lamModule lamRenamer (by simp [lamRenamer])).1⟩

end Purr
